import Mathlib

/-!
Verification of the narrative-state core of the whatif repository:
the append-only event ledger, the per-character knowledge projection,
the decision/timeline branching model and the derived index protocol.

The repository's checked-in sources contain only the React frontend
(viewer, panels, the useWhatIf hook that calls the core over HTTP) and
design documents; the core itself is not among the source files. The
definitions below are therefore modelled from the specification's own
description of the data model (section 3), the component contracts
(section 4) and the testable properties (section 8), and each carries a
doc comment saying what it models.
-/

namespace WhatIf

/-- Modelled from the spec: `confidence` is an ordered enum on
KnowledgeFact, `certain > partial > suspicion > rumor`. The `partial`
level is spelled `partialC` because `partial` is a Lean keyword. -/
inductive Confidence where
  | rumor
  | suspicion
  | partialC
  | certain
deriving DecidableEq, Repr

/-- Numeric rank realising the order `certain > partial > suspicion > rumor`. -/
def Confidence.rank : Confidence → Nat
  | .rumor => 0
  | .suspicion => 1
  | .partialC => 2
  | .certain => 3

/-- Modelled from the spec: `source` enum of a KnowledgeFact:
direct_observation, told_by, overheard, inferred, rumor, physical_evidence. -/
inductive Source where
  | direct_observation
  | told_by
  | overheard
  | inferred
  | rumor
  | physical_evidence
deriving DecidableEq, Repr

/-- Modelled from the spec: a KnowledgeFact records `character_id`,
`fact_key`, `learned_at_event` (kept as the owning event's
`story_order`), `source`, `confidence`, an optional
`invalidated_at_event`, and the `pending_approval` mark that the
failure semantics of section 4.2 attaches to unapproved inferred
facts. Characters and fact keys are identified by naturals. -/
structure KnowledgeFact where
  character_id : Nat
  fact_key : Nat
  learned_at : Nat
  source : Source
  confidence : Confidence
  invalidated_at : Option Nat
  pending_approval : Bool
deriving DecidableEq, Repr

/-- Modelled from the spec: a WorldStateChange is a `(key, value)` delta
scoped to one Event; keys are dotted paths, modelled as naturals. -/
structure Change where
  key : Nat
  value : Nat
deriving DecidableEq, Repr

/-- Modelled from the spec: an Event of the ledger. It keeps the fields
the core invariants speak about: `id`, `story_order`, the character
sets, `triggers` (causal dependencies on prior events), the owning
decision (which Timeline paths the event is visible to), its
WorldStateChanges, and the knowledge payload consumed by the
propagation rules of section 4.2: the facts the event `reveals` to
observers, explicit `told` edges (listener, fact), `evidence`
interactions (character, fact), `inferred` deductions
(character, fact, approved-flag), `rumors` (character, fact), and
explicit `invalidates` entries (character, fact). -/
structure Event where
  id : Nat
  story_order : Nat
  characters_present : List Nat
  characters_colocated : List Nat
  triggers : List Nat
  owner_decision : Nat
  changes : List Change
  reveals : List Nat
  told : List (Nat × Nat)
  evidence : List (Nat × Nat)
  inferred : List (Nat × Nat × Bool)
  rumors : List (Nat × Nat)
  invalidates : List (Nat × Nat)
deriving DecidableEq, Repr

/-- A knowledge fact with no invalidation and the given data. -/
def mkFact (c k ord : Nat) (src : Source) (conf : Confidence) (pending : Bool) :
    KnowledgeFact :=
  ⟨c, k, ord, src, conf, none, pending⟩

/-- Modelled from the spec: the candidate KnowledgeFacts one event
produces for one character, evaluating the propagation rules in the
fixed priority order of section 4.2: direct_observation (character in
`characters_present`, confidence certain) > told_by (explicit
communication edge, confidence partial) > physical_evidence
(confidence certain) > overheard (co-located but not present,
confidence partial) > inferred (confidence suspicion, pending unless
approved) > rumor (confidence rumor). -/
def eventFacts (e : Event) (c : Nat) : List KnowledgeFact :=
  (if c ∈ e.characters_present then
      e.reveals.map (fun k => mkFact c k e.story_order .direct_observation .certain false)
    else []) ++
  (e.told.filterMap (fun p =>
      if p.1 = c then some (mkFact c p.2 e.story_order .told_by .partialC false) else none)) ++
  (e.evidence.filterMap (fun p =>
      if p.1 = c then some (mkFact c p.2 e.story_order .physical_evidence .certain false)
      else none)) ++
  (if c ∈ e.characters_colocated ∧ c ∉ e.characters_present then
      e.reveals.map (fun k => mkFact c k e.story_order .overheard .partialC false)
    else []) ++
  (e.inferred.filterMap (fun q =>
      if q.1 = c then some (mkFact c q.2.1 e.story_order .inferred .suspicion (!q.2.2))
      else none)) ++
  (e.rumors.filterMap (fun p =>
      if p.1 = c then some (mkFact c p.2 e.story_order .rumor .rumor false) else none))

/-- A per-character knowledge set: for each fact key, the recorded
KnowledgeFact if any. -/
def KMap : Type := Nat → Option KnowledgeFact

/-- The empty knowledge set. -/
def KMap.empty : KMap := fun _ => none

/-- Modelled from the spec: merging one candidate fact into the
knowledge set. When multiple rules fire for the same
`(character, fact_key)` pair the highest-confidence result wins, ties
are broken by the earliest `learned_at_event.story_order`, and an
already recorded fact is displaced by a weaker one only after an
explicit invalidation was recorded on it. -/
def insertFact (m : KMap) (f : KnowledgeFact) : KMap := fun k =>
  if k = f.fact_key then
    match m k with
    | none => some f
    | some g =>
      if g.invalidated_at.isSome then some f
      else if g.confidence.rank < f.confidence.rank then some f
      else if g.confidence.rank = f.confidence.rank ∧ f.learned_at < g.learned_at then some f
      else some g
  else m k

/-- Modelled from the spec: recording an explicit invalidation for a fact
key at a given story order (`invalidated_at_event`). -/
def invalidateFact (m : KMap) (k ord : Nat) : KMap := fun k' =>
  if k' = k then
    match m k' with
    | none => none
    | some g =>
      if g.invalidated_at.isSome then some g
      else some { g with invalidated_at := some ord }
  else m k'

/-- Modelled from the spec: processing one event for one character —
merge the facts its propagation rules produce, then record any
explicit invalidations the event carries for this character. -/
def stepEvent (c : Nat) (m : KMap) (e : Event) : KMap :=
  (e.invalidates.filter (fun p => p.1 = c)).foldl
    (fun m' p => invalidateFact m' p.2 e.story_order)
    ((eventFacts e c).foldl insertFact m)

/-- Modelled from the spec: the per-character knowledge projection over a
list of events taken in story order. -/
def projectChar (es : List Event) (c : Nat) : KMap :=
  es.foldl (stepEvent c) KMap.empty

/-- All candidate facts the propagation rules produce for one character
over a list of events, in story order and rule-priority order. -/
def candidateFacts (es : List Event) (c : Nat) : List KnowledgeFact :=
  es.flatMap (fun e => eventFacts e c)

/-- No explicit invalidation for the pair `(c, k)` is recorded anywhere
in the given events. -/
def NoInval (es : List Event) (c k : Nat) : Prop :=
  ∀ e ∈ es, ∀ p ∈ e.invalidates, p.1 = c → p.2 ≠ k

/-- What the spec requires of the recorded fact for key `k` relative to
the candidates the rules produced: when a fact is recorded it is one of
the candidates, it carries the highest confidence among candidates for
`k`, and among equally confident candidates it has the earliest
`learned_at` story order; when no fact is recorded, no rule produced a
candidate for `k`. -/
def WinnerSpec (cs : List KnowledgeFact) (k : Nat) : Option KnowledgeFact → Prop
  | none => ∀ g ∈ cs, g.fact_key ≠ k
  | some f => f.fact_key = k ∧ f ∈ cs ∧ f.invalidated_at = none ∧
      ∀ g ∈ cs, g.fact_key = k →
        (g.confidence.rank < f.confidence.rank ∨
         (g.confidence.rank = f.confidence.rank ∧ f.learned_at ≤ g.learned_at))

/-- Modelled from the spec: the default knowledge-set query — a
character knows `k` iff a fact is recorded that is neither pending
approval nor invalidated. -/
def defaultKnows (m : KMap) (k : Nat) : Bool :=
  match m k with
  | some f => !f.pending_approval && f.invalidated_at.isNone
  | none => false

/-- Modelled from the spec: the approval action on an unapproved inferred
fact — it sets the approval flag of the matching `inferred` entries of
the event. -/
def approveInferred (e : Event) (c k : Nat) : Event :=
  { e with inferred := e.inferred.map (fun q =>
      if q.1 = c ∧ q.2.1 = k then (q.1, q.2.1, true) else q) }

/-! ### Ledger store -/

/-- Modelled from the spec: the append-only Ledger Store, a durable
collection of immutable Events in commit order. -/
structure Ledger where
  events : List Event
deriving DecidableEq, Repr

/-- Modelled from the spec: the validation errors of the ledger append
path. -/
inductive AppendError where
  | OrderingViolation
  | CycleDetected
deriving DecidableEq, Repr

/-- An event id is committed when an event with that id is in the ledger. -/
def Ledger.committed (L : Ledger) (i : Nat) : Bool :=
  L.events.any (fun e => e.id == i)

/-- The trigger edges leaving node `i` of the trigger graph: the
`triggers` of the committed event with id `i`. -/
def trigStep (es : List Event) (i : Nat) : List Nat :=
  match es.find? (fun e => e.id == i) with
  | some e => e.triggers
  | none => []

/-- One directed edge of the trigger graph. -/
def TrigEdge (es : List Event) (a b : Nat) : Prop :=
  b ∈ trigStep es a

/-- The trigger graph contains a (nonempty) cycle: a chain of trigger
edges from some node back to itself. -/
def HasCycle (es : List Event) : Prop :=
  ∃ a l, List.Chain (TrigEdge es) a l ∧ l.getLast? = some a

/-- Fuel-bounded reachability along trigger edges: `canReach es fuel a b`
decides whether `b` is reachable from `a` in at most `fuel` steps. -/
def canReach (es : List Event) : Nat → Nat → Nat → Bool
  | 0, src, tgt => src == tgt
  | fuel + 1, src, tgt =>
      src == tgt || (trigStep es src).any (fun t => canReach es fuel t tgt)

/-- Modelled from the spec: `append(event, changes)` validates before
committing — it fails with `OrderingViolation` when a declared trigger
is not yet committed, when the event id is already committed, or when
the event's `story_order` is not strictly greater than every committed
order (story_order is strictly increasing); it fails with
`CycleDetected` when adding the event's trigger edges would close a
cycle in the trigger graph (some declared trigger already reaches the
new id). Since a cycle-free path visits distinct committed sources, a
reachability budget of one step per committed event is exact. -/
def Ledger.append (L : Ledger) (e : Event) : Except AppendError Ledger :=
  if ¬ (e.triggers.all L.committed) then .error .OrderingViolation
  else if L.committed e.id then .error .OrderingViolation
  else if ¬ (L.events.all (fun e' => e'.story_order < e.story_order)) then
    .error .OrderingViolation
  else if e.triggers.any (fun t => canReach L.events L.events.length t e.id) then
    .error .CycleDetected
  else .ok ⟨L.events ++ [e]⟩

/-- The ledgers reachable from the empty ledger through successful
appends. -/
inductive LedgerReach : Ledger → Prop where
  | nil : LedgerReach ⟨[]⟩
  | step {L : Ledger} {e : Event} {L' : Ledger} :
      LedgerReach L → L.append e = .ok L' → LedgerReach L'

/-- The ledger invariants of the spec: trigger references resolve to
committed events of strictly smaller story order, and committed ids are
distinct. -/
def WFLedger (L : Ledger) : Prop :=
  (∀ e ∈ L.events, ∀ t ∈ e.triggers,
      ∃ e' ∈ L.events, e'.id = t ∧ e'.story_order < e.story_order) ∧
  (L.events.map Event.id).Nodup

/-! ### Decision graph, timelines and the system state -/

/-- Modelled from the spec: a Decision — an immutable named bundle of
document mutations with a parent pointer (none only for the root). -/
structure Decision where
  id : Nat
  parent_id : Option Nat
  mutations : List Change
deriving DecidableEq, Repr

/-- Modelled from the spec: a Timeline — a named root-to-tip path of
Decision ids; exactly one Timeline may be canonical. -/
structure Timeline where
  id : Nat
  name : String
  is_canonical : Bool
  decision_path : List Nat
deriving DecidableEq, Repr

/-- Modelled from the spec: `IndexVersion` is a content hash over
(decision_path, max visible story_order, ledger content); the hash is
modelled as the hashed content itself, an injective stand-in that makes
"unchanged hash" literal. -/
structure IndexVersion where
  path_component : List Nat
  max_order_component : Nat
  content_component : List Event
deriving DecidableEq, Repr

/-- Modelled from the spec: the DerivedIndex — a rebuildable, read-only
projection of the ledger restricted to one timeline, stamped with its
`IndexVersion`. -/
structure DerivedIndex where
  version : IndexVersion
  rows : List Event
deriving DecidableEq, Repr

/-- Modelled from the spec: the whole core state: the Ledger, the
Decision Graph arena, the named Timelines, and the per-timeline derived
indexes, with fresh-id counters. -/
structure SysState where
  ledger : Ledger
  decisions : List Decision
  timelines : List Timeline
  indexes : List (Nat × DerivedIndex)
  nextTimelineId : Nat
  nextDecisionId : Nat
deriving DecidableEq, Repr

/-- Modelled from the spec: the validation errors of the decision graph
operations. -/
inductive DecisionError where
  | UnknownParent
  | NotAChild
deriving DecidableEq, Repr

/-- Look a timeline up by id. -/
def SysState.timeline? (s : SysState) (tid : Nat) : Option Timeline :=
  s.timelines.find? (fun t => t.id == tid)

/-- Modelled from the spec: the events visible to a Timeline — those
whose owning Decision lies on the Timeline's decision_path. -/
def visibleTo (L : Ledger) (tl : Timeline) : List Event :=
  L.events.filter (fun e => tl.decision_path.contains e.owner_decision)

/-- The events visible to a Timeline at or before a story order. -/
def visibleEvents (L : Ledger) (tl : Timeline) (at_order : Nat) : List Event :=
  (visibleTo L tl).filter (fun e => e.story_order ≤ at_order)

/-- The largest visible story order of a timeline. -/
def maxVisibleOrder (L : Ledger) (tl : Timeline) : Nat :=
  (visibleTo L tl).foldl (fun a e => max a e.story_order) 0

/-- Modelled from the spec: the `IndexVersion` computed over
(decision_path, max visible story_order, ledger content hash). -/
def computeVersion (L : Ledger) (tl : Timeline) : IndexVersion :=
  ⟨tl.decision_path, maxVisibleOrder L tl, visibleTo L tl⟩

/-- Modelled from the spec: a full index rebuild for one timeline. -/
def computeIndex (L : Ledger) (tl : Timeline) : DerivedIndex :=
  ⟨computeVersion L tl, visibleTo L tl⟩

/-- Modelled from the spec: `reindex(timeline_id) -> IndexVersion`
rebuilds the derived index of the timeline from the Ledger and the
Timeline's decision path and atomically swaps it in, returning the new
version (none when the timeline does not exist). -/
def reindex (s : SysState) (tid : Nat) : SysState × Option IndexVersion :=
  match s.timeline? tid with
  | none => (s, none)
  | some tl =>
    let idx := computeIndex s.ledger tl
    ({ s with indexes := (tid, idx) :: s.indexes.filter (fun p => p.1 ≠ tid) },
     some idx.version)

/-- Modelled from the spec: `fork_timeline(source, new_name)` copies the
source Timeline's decision_path verbatim into a new, non-canonical
Timeline — an O(1) metadata operation. -/
def fork_timeline (s : SysState) (src : Nat) (new_name : String) :
    Option (SysState × Nat) :=
  match s.timeline? src with
  | none => none
  | some tl =>
    let b := s.nextTimelineId
    some ({ s with
            timelines := s.timelines ++ [⟨b, new_name, false, tl.decision_path⟩],
            nextTimelineId := b + 1 }, b)

/-- Modelled from the spec: `create_decision(parent_id, mutations)` fails
with `UnknownParent` when the parent does not exist, and otherwise adds
a fresh immutable Decision under the parent. -/
def create_decision (s : SysState) (parent : Nat) (muts : List Change) :
    Except DecisionError (SysState × Nat) :=
  if s.decisions.any (fun d => d.id == parent) then
    let i := s.nextDecisionId
    .ok ({ s with
           decisions := s.decisions ++ [⟨i, some parent, muts⟩],
           nextDecisionId := i + 1 }, i)
  else .error .UnknownParent

/-- The tip of a timeline's decision path. -/
def Timeline.tip (tl : Timeline) : Option Nat :=
  tl.decision_path.getLast?

/-- Modelled from the spec: `append_decision(timeline_id, decision_id)`
fails with `NotAChild` when the decision's parent is not the current
tip of the timeline's path (and with `UnknownParent` when the timeline
or decision is unknown); otherwise it appends the decision id to that
timeline's path. -/
def append_decision (s : SysState) (tid did : Nat) : Except DecisionError SysState :=
  match s.timeline? tid, s.decisions.find? (fun d => d.id == did) with
  | some tl, some d =>
    if d.parent_id = tl.tip then
      .ok { s with timelines := s.timelines.map (fun t =>
              if t.id = tid then { t with decision_path := t.decision_path ++ [did] }
              else t) }
    else .error .NotAChild
  | _, _ => .error .UnknownParent

/-- Modelled from the spec: deleting a Timeline only removes the name
binding, never the underlying Decisions; since exactly one Timeline is
canonical at all times, the canonical timeline cannot be deleted. -/
def delete_timeline (s : SysState) (tid : Nat) : Option SysState :=
  match s.timeline? tid with
  | none => none
  | some tl =>
    if tl.is_canonical then none
    else some { s with
                timelines := s.timelines.filter (fun t => t.id != tid),
                indexes := s.indexes.filter (fun p => p.1 != tid) }

/-- Folding a validated ledger append into the system state. -/
def ingestEvent (s : SysState) (e : Event) : Except AppendError SysState :=
  match s.ledger.append e with
  | .ok L => .ok { s with ledger := L }
  | .error err => .error err

/-- Modelled from the spec: the initial state — an empty ledger, the root
"as authored" decision, and the single canonical `main` timeline. -/
def initState : SysState :=
  { ledger := ⟨[]⟩,
    decisions := [⟨0, none, []⟩],
    timelines := [⟨0, "main", true, [0]⟩],
    indexes := [],
    nextTimelineId := 1,
    nextDecisionId := 1 }

/-- The reachable states of the core: everything the Branch Orchestrator
can produce from the initial state through the modelled operations. -/
inductive Reachable : SysState → Prop where
  | init : Reachable initState
  | fork {s : SysState} {src : Nat} {nm : String} {s' : SysState} {b : Nat} :
      Reachable s → fork_timeline s src nm = some (s', b) → Reachable s'
  | createDecision {s : SysState} {p : Nat} {muts : List Change}
      {s' : SysState} {d : Nat} :
      Reachable s → create_decision s p muts = .ok (s', d) → Reachable s'
  | appendDecision {s : SysState} {tid did : Nat} {s' : SysState} :
      Reachable s → append_decision s tid did = .ok s' → Reachable s'
  | ingest {s : SysState} {e : Event} {s' : SysState} :
      Reachable s → ingestEvent s e = .ok s' → Reachable s'
  | doReindex {s : SysState} {tid : Nat} {s' : SysState} {v : Option IndexVersion} :
      Reachable s → reindex s tid = (s', v) → Reachable s'
  | delete {s : SysState} {tid : Nat} {s' : SysState} :
      Reachable s → delete_timeline s tid = some s' → Reachable s'

/-! ### Queries -/

/-- Modelled from the spec: `project(timeline, character_id, at_order)` —
the knowledge projection over the events visible to the timeline at or
before the given order. -/
def project (L : Ledger) (tl : Timeline) (c at_order : Nat) : KMap :=
  projectChar (visibleEvents L tl at_order) c

/-- The projection query at the system-state level (none when the
timeline does not exist). -/
def projectQ (s : SysState) (tid c at_order : Nat) : Option KMap :=
  (s.timeline? tid).map (fun tl => project s.ledger tl c at_order)

/-- The last change an event applies to a key, if any. -/
def lastChangeIn (e : Event) (key : Nat) : Option Nat :=
  ((e.changes.filter (fun ch => ch.key == key)).getLast?).map Change.value

/-- Modelled from the spec: `current_value(timeline, key, at_order)`
resolves the most recent WorldStateChange to `key` at or before
`at_order` on that Timeline. -/
def current_value (L : Ledger) (tl : Timeline) (key at_order : Nat) : Option Nat :=
  (visibleEvents L tl at_order).foldl
    (fun acc e =>
      match lastChangeIn e key with
      | some v => some v
      | none => acc) none

/-- The current-value query at the system-state level. -/
def currentQ (s : SysState) (tid key at_order : Nat) : Option (Option Nat) :=
  (s.timeline? tid).map (fun tl => current_value s.ledger tl key at_order)

/-! ### Concrete fixtures used by the witnesses -/

/-- Fixture: event 1, story order 1, marcus (character 1) present, reveals
fact 10, sets key 5 to 42. -/
def wE1 : Event := ⟨1, 1, [1], [], [], 0, [⟨5, 42⟩], [10], [], [], [], [], []⟩

/-- Fixture: event 2, story order 2, jane tells marcus fact 10
(confidence partial), sets key 5 to 43, triggered by event 1. -/
def wE2 : Event := ⟨2, 2, [], [], [1], 0, [⟨5, 43⟩], [], [(1, 10)], [], [], [], []⟩

/-- Fixture: the canonical main timeline holding the root decision. -/
def wTL : Timeline := ⟨0, "main", true, [0]⟩

/-- Fixture: a two-event ledger. -/
def wL : Ledger := ⟨[wE1, wE2]⟩

/-! ### Theorems -/

/-- C2: the knowledge projection `project(timeline, character_id,
at_order)` is deterministic: two runs against the same unchanged Ledger
state (and the same timeline) return identical KnowledgeSets. In this
embedding the projector is a pure function of the ledger and timeline,
so equal inputs give equal outputs. -/
theorem project_deterministic (L1 L2 : Ledger) (tl1 tl2 : Timeline) (c n : Nat)
    (hL : L1 = L2) (ht : tl1 = tl2) :
    project L1 tl1 c n = project L2 tl2 c n := by
  subst hL; subst ht; rfl

/-- Witness for C2 at a concrete ledger, timeline, character and order. -/
theorem project_deterministic_witness :
    wL = wL ∧ wTL = wTL ∧ project wL wTL 1 2 = project wL wTL 1 2 :=
  ⟨rfl, rfl, project_deterministic wL wL wTL wTL 1 2 rfl rfl⟩

/-- C3: `reindex` is idempotent: running it twice with no mutation in
between returns the same `IndexVersion` and leaves a byte-identical
state (in particular a byte-identical derived index). -/
theorem reindex_idempotent (s : SysState) (tid : Nat) (s1 s2 : SysState)
    (v1 v2 : Option IndexVersion)
    (h1 : reindex s tid = (s1, v1)) (h2 : reindex s1 tid = (s2, v2)) :
    v2 = v1 ∧ s2 = s1 := by
  unfold reindex at h1 h2
  cases htl : s.timeline? tid with
  | none =>
    rw [htl] at h1
    injection h1 with ha hb
    subst ha; subst hb
    rw [htl] at h2
    injection h2 with ha hb
    exact ⟨hb.symm, ha.symm⟩
  | some tl =>
    rw [htl] at h1
    injection h1 with ha hb
    subst ha; subst hb
    have htl1 : SysState.timeline?
        { s with indexes :=
            (tid, computeIndex s.ledger tl) :: s.indexes.filter (fun p => p.1 ≠ tid) }
        tid = some tl := htl
    rw [htl1] at h2
    injection h2 with ha hb
    subst ha; subst hb
    refine ⟨rfl, ?_⟩
    simp only [SysState.mk.injEq, and_true, true_and]
    rw [List.filter_cons]
    simp [List.filter_filter]

/-- Fixture: a concrete system state holding the two-event ledger, the
root decision and the main timeline. -/
def wS : SysState := ⟨wL, [⟨0, none, []⟩], [wTL], [], 1, 1⟩

/-- Witness for C3 at a concrete state: reindexing the main timeline of
a concrete system twice returns the same version and state. -/
theorem reindex_idempotent_witness :
    (reindex (reindex wS 0).1 0).2 = (reindex wS 0).2 ∧
    (reindex (reindex wS 0).1 0).1 = (reindex wS 0).1 :=
  reindex_idempotent wS 0 (reindex wS 0).1 (reindex (reindex wS 0).1 0).1
    (reindex wS 0).2 (reindex (reindex wS 0).1 0).2 rfl rfl

/-- The number of canonical timelines of a state. -/
def canonCount (s : SysState) : Nat :=
  s.timelines.countP (fun t => t.is_canonical)

/-- The timeline bookkeeping invariant: exactly one canonical timeline,
distinct timeline ids, and ids below the fresh-id counter. -/
def TlInv (s : SysState) : Prop :=
  canonCount s = 1 ∧ (s.timelines.map Timeline.id).Nodup ∧
  ∀ t ∈ s.timelines, t.id < s.nextTimelineId

lemma tlInv_of_reachable {s : SysState} (h : Reachable s) : TlInv s := by
  induction h with
  | init =>
    refine ⟨rfl, ?_, ?_⟩ <;> simp [initState]
  | fork hr heq ih =>
    rename_i s src nm s' b
    obtain ⟨hc, hnd, hlt⟩ := ih
    unfold fork_timeline at heq
    cases htl : s.timeline? src <;> rw [htl] at heq
    · exact absurd heq (by simp)
    · rename_i tl
      dsimp only at heq
      injection heq with ha
      injection ha with ha hb
      subst ha; subst hb
      refine ⟨?_, ?_, ?_⟩
      · simpa [canonCount, List.countP_append] using hc
      · simp only [List.map_append]
        rw [List.nodup_append]
        refine ⟨hnd, by simp, ?_⟩
        intro x hx
        simp only [List.mem_map] at hx
        obtain ⟨t, ht, hxeq⟩ := hx
        have := hlt t ht
        simp only [List.map_cons, List.map_nil, List.mem_singleton]
        omega
      · intro t ht
        simp only [List.mem_append, List.mem_singleton] at ht
        rcases ht with ht | ht
        · exact Nat.lt_succ_of_lt (hlt t ht)
        · subst ht; exact Nat.lt_succ_self _
  | createDecision hr heq ih =>
    rename_i s p muts s' d
    unfold create_decision at heq
    split at heq
    · injection heq with ha
      injection ha with ha hb
      subst ha
      exact ih
    · exact absurd heq (by simp)
  | appendDecision hr heq ih =>
    rename_i s tid did s'
    obtain ⟨hc, hnd, hlt⟩ := ih
    unfold append_decision at heq
    cases htl : s.timeline? tid <;> rw [htl] at heq
    · exact absurd heq (by simp)
    · rename_i tl
      cases hd : s.decisions.find? (fun d => d.id == did) <;> rw [hd] at heq
      · exact absurd heq (by simp)
      · rename_i dd
        dsimp only at heq
        split at heq
        · injection heq with ha
          subst ha
          refine ⟨?_, ?_, ?_⟩
          · unfold canonCount at hc ⊢
            simp only [List.countP_map]
            rw [List.countP_congr ?_]
            · exact hc
            · intro t _
              by_cases h : t.id = tid <;> simp [h]
          · simp only [List.map_map]
            have : (s.timelines.map (Timeline.id ∘ fun t =>
                if t.id = tid then { t with decision_path := t.decision_path ++ [did] }
                else t)) = s.timelines.map Timeline.id := by
              apply List.map_congr_left
              intro t _
              by_cases h : t.id = tid <;> simp [h]
            rw [this]
            exact hnd
          · intro t ht
            simp only [List.mem_map] at ht
            obtain ⟨t0, ht0, hteq⟩ := ht
            have := hlt t0 ht0
            subst hteq
            by_cases h : t0.id = tid <;> simp [h] <;> omega
        · exact absurd heq (by simp)
  | ingest hr heq ih =>
    rename_i s e s'
    unfold ingestEvent at heq
    cases ha : s.ledger.append e <;> rw [ha] at heq <;> dsimp only at heq
    · exact absurd heq (by simp)
    · injection heq with hb
      subst hb
      exact ih
  | doReindex hr heq ih =>
    rename_i s tid s' v
    unfold reindex at heq
    cases htl : s.timeline? tid <;> rw [htl] at heq
    · injection heq with ha hb
      subst ha
      exact ih
    · injection heq with ha hb
      subst ha
      exact ih
  | delete hr heq ih =>
    rename_i s tid s'
    obtain ⟨hc, hnd, hlt⟩ := ih
    unfold delete_timeline at heq
    cases htl : s.timeline? tid <;> rw [htl] at heq
    · exact absurd heq (by simp)
    · rename_i tl
      dsimp only at heq
      split at heq
      · exact absurd heq (by simp)
      · rename_i hcanon
        injection heq with ha
        subst ha
        have htlmem : tl ∈ s.timelines := List.mem_of_find?_eq_some htl
        have htlid : tl.id = tid := by
          have := List.find?_some htl
          simpa using this
        refine ⟨?_, ?_, ?_⟩
        · unfold canonCount at hc ⊢
          rw [List.countP_filter, List.countP_congr ?_]
          · exact hc
          · intro t htmem
            simp only [Bool.and_eq_true, bne_iff_ne, ne_eq, decide_eq_true_eq]
            constructor
            · exact fun h => h.1
            · intro h
              refine ⟨h, ?_⟩
              intro hid
              have : t = tl := by
                apply List.inj_on_of_nodup_map hnd htmem htlmem
                rw [hid, htlid]
              rw [this] at h
              exact hcanon (by simpa using h)
        · exact hnd.sublist (List.Sublist.map _ (List.filter_sublist _))
        · intro t ht
          exact hlt t (List.mem_of_mem_filter ht)

/-- C8: in every reachable state of the system exactly one Timeline is
canonical; every modelled operation that creates, forks or deletes a
Timeline preserves this invariant. -/
theorem canonical_timeline_unique (s : SysState) (h : Reachable s) :
    canonCount s = 1 :=
  (tlInv_of_reachable h).1

/-- Witness for C8 at the initial state. -/
theorem canonical_timeline_unique_witness : canonCount initState = 1 :=
  canonical_timeline_unique initState Reachable.init

lemma find?_map_timeline (l : List Timeline) (f : Timeline → Timeline)
    (hid : ∀ t, (f t).id = t.id) (a : Nat) :
    (l.map f).find? (fun t => t.id == a) =
      (l.find? (fun t => t.id == a)).map f := by
  induction l with
  | nil => rfl
  | cons h t ih =>
    by_cases hh : h.id = a
    · simp [List.find?_cons, hid, hh]
    · have hb : (h.id == a) = false := by simp [hh]
      simp only [List.map_cons, List.find?_cons, hid, hb]
      exact ih

/-- C4: fork isolation. After `fork_timeline(A, B)`, appending a decision
to B changes no query result against A: the projection and
current-value queries on A are unchanged and `reindex(A)` returns an
unchanged version hash, while `reindex(B)`'s version hash changes. -/
theorem fork_isolation (s : SysState) (a : Nat) (nm : String) (s1 : SysState)
    (b : Nat) (tlA : Timeline)
    (hA : s.timeline? a = some tlA)
    (hids : ∀ t ∈ s.timelines, t.id < s.nextTimelineId)
    (hfork : fork_timeline s a nm = some (s1, b))
    (did : Nat) (s2 : SysState)
    (happ : append_decision s1 b did = .ok s2)
    (c n k : Nat) :
    projectQ s2 a c n = projectQ s a c n ∧
    currentQ s2 a k n = currentQ s a k n ∧
    (reindex s2 a).2 = (reindex s a).2 ∧
    (reindex s2 b).2 ≠ (reindex s1 b).2 := by
  have haid : tlA.id = a := by simpa using List.find?_some hA
  have hamem : tlA ∈ s.timelines := List.mem_of_find?_eq_some hA
  unfold fork_timeline at hfork
  rw [hA] at hfork
  dsimp only at hfork
  injection hfork with h1
  injection h1 with h1 hb
  subst h1; subst hb
  set tlB : Timeline := ⟨s.nextTimelineId, nm, false, tlA.decision_path⟩ with htlB
  set s1 : SysState :=
    { s with timelines := s.timelines ++ [tlB],
             nextTimelineId := s.nextTimelineId + 1 } with hs1
  have haneb : a ≠ s.nextTimelineId := by
    have := hids tlA hamem
    omega
  have hA1 : s1.timeline? a = some tlA := by
    unfold SysState.timeline?
    show (s.timelines ++ [tlB]).find? _ = _
    rw [List.find?_append]
    unfold SysState.timeline? at hA
    rw [hA]
    rfl
  have hnone : s.timelines.find? (fun t => t.id == s.nextTimelineId) = none := by
    rw [List.find?_eq_none]
    intro t ht
    have := hids t ht
    simp only [beq_iff_eq]
    omega
  have hB1 : s1.timeline? s.nextTimelineId = some tlB := by
    unfold SysState.timeline?
    show (s.timelines ++ [tlB]).find? _ = _
    rw [List.find?_append, hnone]
    simp [htlB]
  unfold append_decision at happ
  rw [hB1] at happ
  cases hd : s1.decisions.find? (fun d => d.id == did) <;> rw [hd] at happ <;>
    dsimp only at happ
  · exact absurd happ (by simp)
  · rename_i dd
    split at happ
    case isFalse => exact absurd happ (by simp)
    case isTrue hpar =>
      injection happ with h2
      subst h2
      set f : Timeline → Timeline := fun t =>
        if t.id = s.nextTimelineId
        then { t with decision_path := t.decision_path ++ [did] } else t with hf
      have hfid : ∀ t, (f t).id = t.id := by
        intro t
        by_cases ht : t.id = s.nextTimelineId <;> simp [hf, ht]
      have hfa : f tlA = tlA := by
        rw [hf]
        simp only [haid, if_neg haneb]
      have hA2 : SysState.timeline?
          { s1 with timelines := s1.timelines.map f } a = some tlA := by
        unfold SysState.timeline?
        show (s1.timelines.map f).find? _ = _
        rw [find?_map_timeline _ f hfid]
        unfold SysState.timeline? at hA1
        rw [hA1]
        simp [hfa]
      have hB2 : SysState.timeline?
          { s1 with timelines := s1.timelines.map f } s.nextTimelineId =
            some { tlB with decision_path := tlB.decision_path ++ [did] } := by
        unfold SysState.timeline?
        show (s1.timelines.map f).find? _ = _
        rw [find?_map_timeline _ f hfid]
        unfold SysState.timeline? at hB1
        rw [hB1]
        simp [hf, htlB]
      refine ⟨?_, ?_, ?_, ?_⟩
      · unfold projectQ
        rw [hA2, hA]
      · unfold currentQ
        rw [hA2, hA]
      · unfold reindex
        rw [hA2, hA]
      · unfold reindex
        rw [hB2, hB1]
        simp only [ne_eq, Option.some.injEq]
        intro hcontra
        have : tlA.decision_path ++ [did] = tlA.decision_path := by
          have h3 := congrArg IndexVersion.path_component hcontra
          simp only [computeIndex, computeVersion, htlB] at h3
          exact h3
        simpa using congrArg List.length this

/-- Fixture: a system with the two-event ledger, a root decision plus a
child decision 1, and the single main timeline. -/
def wS4 : SysState := ⟨wL, [⟨0, none, []⟩, ⟨1, some 0, []⟩], [wTL], [], 1, 2⟩

/-- Fixture: `wS4` after `fork_timeline(main, "noir")`. -/
def wS4f : SysState :=
  ⟨wL, [⟨0, none, []⟩, ⟨1, some 0, []⟩],
   [wTL, ⟨1, "noir", false, [0]⟩], [], 2, 2⟩

/-- Fixture: `wS4f` after appending decision 1 to `noir`. -/
def wS4a : SysState :=
  ⟨wL, [⟨0, none, []⟩, ⟨1, some 0, []⟩],
   [wTL, ⟨1, "noir", false, [0, 1]⟩], [], 2, 2⟩

/-- Witness for C4: fork `main` into `noir` in the concrete state, append
child decision 1 only to `noir`, and observe that the queries and the
reindex version of `main` are unchanged while `noir`'s version changes. -/
theorem fork_isolation_witness :
    projectQ wS4a 0 1 2 = projectQ wS4 0 1 2 ∧
    currentQ wS4a 0 5 2 = currentQ wS4 0 5 2 ∧
    (reindex wS4a 0).2 = (reindex wS4 0).2 ∧
    (reindex wS4a 1).2 ≠ (reindex wS4f 1).2 :=
  fork_isolation wS4 0 "noir" wS4f 1 wTL (by decide) (by decide) rfl 1 wS4a rfl 1 2 5

lemma foldl_lastChange_spec (key : Nat) (es : List Event)
    (hs : es.Pairwise (fun a b => a.story_order < b.story_order)) :
    (∀ v, (es.foldl (fun acc e =>
        match lastChangeIn e key with
        | some v => some v
        | none => acc) none) = some v ↔
       ∃ e, e ∈ es ∧ lastChangeIn e key = some v ∧
         ∀ e' ∈ es, (lastChangeIn e' key).isSome → e'.story_order ≤ e.story_order)
    ∧ ((es.foldl (fun acc e =>
        match lastChangeIn e key with
        | some v => some v
        | none => acc) none) = none ↔ ∀ e ∈ es, lastChangeIn e key = none) := by
  induction es using List.reverseRecOn with
  | nil => simp
  | append_singleton es e ih =>
    rw [List.pairwise_append] at hs
    obtain ⟨hs1, _, horder⟩ := hs
    obtain ⟨ihs, ihn⟩ := ih hs1
    rw [List.foldl_append]
    cases hl : lastChangeIn e key with
    | some v0 =>
      simp only [List.foldl_cons, List.foldl_nil, hl]
      constructor
      · intro v
        constructor
        · intro hv
          injection hv with hv
          subst hv
          refine ⟨e, by simp, hl, ?_⟩
          intro e' he' _
          rcases List.mem_append.mp he' with h | h
          · have := horder e' h e (by simp)
            omega
          · simp only [List.mem_singleton] at h
            subst h
            omega
        · rintro ⟨e', he'mem, he'last, hmax⟩
          rcases List.mem_append.mp he'mem with h | h
          · have h1 := hmax e (by simp) (by rw [hl]; rfl)
            have h2 := horder e' h e (by simp)
            omega
          · simp only [List.mem_singleton] at h
            subst h
            rw [hl] at he'last
            exact he'last
      · constructor
        · intro h
          cases h
        · intro h
          have := h e (by simp)
          rw [hl] at this
          cases this
    | none =>
      simp only [List.foldl_cons, List.foldl_nil, hl]
      constructor
      · intro v
        rw [ihs v]
        constructor
        · rintro ⟨e', he'mem, he'last, hmax⟩
          refine ⟨e', List.mem_append.mpr (Or.inl he'mem), he'last, ?_⟩
          intro e'' he'' hsome
          rcases List.mem_append.mp he'' with h | h
          · exact hmax e'' h hsome
          · simp only [List.mem_singleton] at h
            subst h
            rw [hl] at hsome
            cases hsome
        · rintro ⟨e', he'mem, he'last, hmax⟩
          rcases List.mem_append.mp he'mem with h | h
          · refine ⟨e', h, he'last, ?_⟩
            intro e'' he'' hsome
            exact hmax e'' (List.mem_append.mpr (Or.inl he'')) hsome
          · simp only [List.mem_singleton] at h
            subst h
            rw [hl] at he'last
            cases he'last
      · rw [ihn]
        constructor
        · intro h e' he'
          rcases List.mem_append.mp he' with hm | hm
          · exact h e' hm
          · simp only [List.mem_singleton] at hm
            subst hm
            exact hl
        · intro h e' he'
          exact h e' (List.mem_append.mpr (Or.inl he'))

/-- C6: `current_value(timeline, key, at_order)` returns `some v` exactly
when `v` is the value of the most recent WorldStateChange to `key`
whose owning event's story order is at or before `at_order` and visible
on the timeline, and `none` exactly when no such change exists. Stated
for ledgers whose events are in strictly increasing story order, the
invariant `append` maintains. -/
theorem current_value_resolves (L : Ledger) (tl : Timeline) (key n : Nat)
    (hs : L.events.Pairwise (fun a b => a.story_order < b.story_order)) :
    (∀ v, current_value L tl key n = some v ↔
       ∃ e, e ∈ visibleEvents L tl n ∧ lastChangeIn e key = some v ∧
         ∀ e' ∈ visibleEvents L tl n, (lastChangeIn e' key).isSome →
           e'.story_order ≤ e.story_order)
    ∧ (current_value L tl key n = none ↔
       ∀ e ∈ visibleEvents L tl n, lastChangeIn e key = none) := by
  have hsub : List.Sublist (visibleEvents L tl n) L.events :=
    ((List.filter_sublist _).trans (List.filter_sublist _))
  exact foldl_lastChange_spec key _ (hs.sublist hsub)

/-- Witness for C6: in the two-event ledger the value of key 5 at order 2
resolves to 43, the change owned by the latest visible event. -/
theorem current_value_resolves_witness : current_value wL wTL 5 2 = some 43 :=
  ((current_value_resolves wL wTL 5 2 (by decide)).1 43).mpr
    ⟨wE2, by decide, by decide, by decide⟩

lemma foldl_insert_const (k : Nat) (f0 : KnowledgeFact) :
    ∀ (cs : List KnowledgeFact) (m : KMap),
      (∀ f ∈ cs, f.fact_key = k → f = f0) →
      (m k = some f0 ∨ (m k = none ∧ ∃ f ∈ cs, f.fact_key = k)) →
      (cs.foldl insertFact m) k = some f0 := by
  intro cs
  induction cs with
  | nil =>
    intro m _ hm
    rcases hm with h | ⟨_, _, h, _⟩
    · exact h
    · cases h
  | cons f t ih =>
    intro m hall hm
    simp only [List.foldl_cons]
    by_cases hk : f.fact_key = k
    · have hf0 : f = f0 := hall f (by simp) hk
      subst hf0
      have hk' : (insertFact m f) k = some f := by
        unfold insertFact
        rw [if_pos hk.symm]
        cases hmk : m k with
        | none => rfl
        | some g =>
          rcases hm with h | ⟨h, _⟩
          · rw [hmk] at h
            injection h with h
            subst h
            dsimp only
            by_cases h1 : g.invalidated_at.isSome = true
            · rw [if_pos h1]
            · rw [if_neg h1, if_neg (by omega), if_neg (by omega)]
          · rw [hmk] at h
            cases h
      exact ih (insertFact m f) (fun g hg hgk => hall g (by simp [hg]) hgk)
        (Or.inl hk')
    · have hk' : (insertFact m f) k = m k := by
        unfold insertFact
        rw [if_neg (fun h => hk h.symm)]
      rcases hm with h | ⟨h, g, hg, hgk⟩
      · exact ih _ (fun g hg hgk => hall g (by simp [hg]) hgk) (Or.inl (hk' ▸ h))
      · simp only [List.mem_cons] at hg
        rcases hg with hg | hg
        · subst hg
          exact absurd hgk hk
        · exact ih _ (fun g' hg' hgk' => hall g' (by simp [hg']) hgk')
            (Or.inr ⟨hk' ▸ h, g, hg, hgk⟩)

lemma foldl_inval_other (k : Nat) :
    ∀ (ps : List (Nat × Nat)) (m : KMap) (ord : Nat),
      (∀ p ∈ ps, p.2 ≠ k) →
      (ps.foldl (fun m' p => invalidateFact m' p.2 ord) m) k = m k := by
  intro ps
  induction ps with
  | nil => intro m ord _; rfl
  | cons p t ih =>
    intro m ord hall
    simp only [List.foldl_cons]
    rw [ih _ ord (fun q hq => hall q (by simp [hq]))]
    unfold invalidateFact
    rw [if_neg ?_]
    exact fun h => hall p (by simp) h.symm

lemma eventFacts_key_inferred (e : Event) (c k : Nat) (pb : Bool)
    (hpresent : c ∉ e.characters_present)
    (hco : c ∉ e.characters_colocated)
    (htold : ∀ p ∈ e.told, p.1 = c → p.2 ≠ k)
    (hev : ∀ p ∈ e.evidence, p.1 = c → p.2 ≠ k)
    (hru : ∀ p ∈ e.rumors, p.1 = c → p.2 ≠ k)
    (hinf : ∀ q ∈ e.inferred, q.1 = c → q.2.1 = k → q.2.2 = !pb) :
    ∀ f ∈ eventFacts e c, f.fact_key = k →
      f = mkFact c k e.story_order .inferred .suspicion pb := by
  intro f hf hkey
  unfold eventFacts at hf
  rw [if_neg hpresent, if_neg (fun h => hco h.1)] at hf
  simp only [List.nil_append, List.append_assoc, List.mem_append,
    List.mem_filterMap] at hf
  rcases hf with ⟨p, hp, hpe⟩ | ⟨p, hp, hpe⟩ | ⟨q, hq, hqe⟩ | ⟨p, hp, hpe⟩
  · by_cases h : p.1 = c
    · rw [if_pos h] at hpe
      injection hpe with hpe
      subst hpe
      exact absurd hkey (htold p hp h)
    · rw [if_neg h] at hpe
      cases hpe
  · by_cases h : p.1 = c
    · rw [if_pos h] at hpe
      injection hpe with hpe
      subst hpe
      exact absurd hkey (hev p hp h)
    · rw [if_neg h] at hpe
      cases hpe
  · by_cases h : q.1 = c
    · rw [if_pos h] at hqe
      injection hqe with hqe
      subst hqe
      have hk2 : q.2.1 = k := hkey
      have := hinf q hq h hk2
      simp only [mkFact, this, Bool.not_not, hk2]
    · rw [if_neg h] at hqe
      cases hqe
  · by_cases h : p.1 = c
    · rw [if_pos h] at hpe
      injection hpe with hpe
      subst hpe
      exact absurd hkey (hru p hp h)
    · rw [if_neg h] at hpe
      cases hpe

lemma projectChar_single_inferred (e : Event) (c k : Nat) (pb : Bool)
    (hpresent : c ∉ e.characters_present)
    (hco : c ∉ e.characters_colocated)
    (htold : ∀ p ∈ e.told, p.1 = c → p.2 ≠ k)
    (hev : ∀ p ∈ e.evidence, p.1 = c → p.2 ≠ k)
    (hru : ∀ p ∈ e.rumors, p.1 = c → p.2 ≠ k)
    (hinf : ∀ q ∈ e.inferred, q.1 = c → q.2.1 = k → q.2.2 = !pb)
    (hex : ∃ q ∈ e.inferred, q.1 = c ∧ q.2.1 = k)
    (hinv : ∀ p ∈ e.invalidates, p.1 = c → p.2 ≠ k) :
    projectChar [e] c k =
      some (mkFact c k e.story_order .inferred .suspicion pb) := by
  obtain ⟨q, hq, hqc, hqk⟩ := hex
  have hfold : ((eventFacts e c).foldl insertFact KMap.empty) k =
      some (mkFact c k e.story_order .inferred .suspicion pb) := by
    apply foldl_insert_const k _ _ KMap.empty
      (eventFacts_key_inferred e c k pb hpresent hco htold hev hru hinf)
    refine Or.inr ⟨rfl, mkFact c k e.story_order .inferred .suspicion pb, ?_, rfl⟩
    unfold eventFacts
    rw [if_neg hpresent, if_neg (fun h => hco h.1)]
    simp only [List.nil_append, List.append_assoc, List.mem_append,
      List.mem_filterMap]
    refine Or.inr (Or.inr (Or.inl ⟨q, hq, ?_⟩))
    rw [if_pos hqc]
    have := hinf q hq hqc hqk
    simp [mkFact, hqk, this]
  show (stepEvent c KMap.empty e) k = _
  unfold stepEvent
  rw [foldl_inval_other k _ _ _ ?_, hfold]
  intro p hp
  simp only [List.mem_filter, decide_eq_true_eq] at hp
  exact hinv p hp.1 hp.2

/-- C7: an inferred fact produced without the required approval flag is
still computed by the projector but marked `pending_approval` (with
confidence `suspicion`) and excluded from the default knowledge-set
query; after approval a re-query includes it with confidence
`suspicion`. Stated for an event whose only propagation-rule match for
`(c, k)` is the unapproved inference. -/
theorem inferred_pending_approval (e : Event) (c k : Nat)
    (hin : (c, k, false) ∈ e.inferred)
    (hpresent : c ∉ e.characters_present)
    (hco : c ∉ e.characters_colocated)
    (htold : ∀ p ∈ e.told, p.1 = c → p.2 ≠ k)
    (hev : ∀ p ∈ e.evidence, p.1 = c → p.2 ≠ k)
    (hru : ∀ p ∈ e.rumors, p.1 = c → p.2 ≠ k)
    (hinf : ∀ q ∈ e.inferred, q.1 = c → q.2.1 = k → q.2.2 = false)
    (hinv : ∀ p ∈ e.invalidates, p.1 = c → p.2 ≠ k) :
    projectChar [e] c k =
      some (mkFact c k e.story_order .inferred .suspicion true) ∧
    defaultKnows (projectChar [e] c) k = false ∧
    projectChar [approveInferred e c k] c k =
      some (mkFact c k e.story_order .inferred .suspicion false) ∧
    defaultKnows (projectChar [approveInferred e c k] c) k = true := by
  have h1 : projectChar [e] c k =
      some (mkFact c k e.story_order .inferred .suspicion true) := by
    apply projectChar_single_inferred e c k true hpresent hco htold hev hru
    · simpa using hinf
    · exact ⟨(c, k, false), hin, rfl, rfl⟩
    · exact hinv
  set e' := approveInferred e c k with he'
  have hfields : e'.characters_present = e.characters_present ∧
      e'.characters_colocated = e.characters_colocated ∧
      e'.told = e.told ∧ e'.evidence = e.evidence ∧ e'.rumors = e.rumors ∧
      e'.invalidates = e.invalidates ∧ e'.story_order = e.story_order :=
    ⟨rfl, rfl, rfl, rfl, rfl, rfl, rfl⟩
  have h2 : projectChar [e'] c k =
      some (mkFact c k e.story_order .inferred .suspicion false) := by
    have := projectChar_single_inferred e' c k false
      (hfields.1 ▸ hpresent) (hfields.2.1 ▸ hco)
      (hfields.2.2.1 ▸ htold) (hfields.2.2.2.1 ▸ hev)
      (hfields.2.2.2.2.1 ▸ hru) ?_ ?_ (hfields.2.2.2.2.2.1 ▸ hinv)
    · rw [this, hfields.2.2.2.2.2.2]
    · intro q hq hqc hqk
      rw [he'] at hq
      unfold approveInferred at hq
      simp only [List.mem_map] at hq
      obtain ⟨q0, hq0, hqeq⟩ := hq
      by_cases hmatch : q0.1 = c ∧ q0.2.1 = k
      · rw [if_pos hmatch] at hqeq
        subst hqeq
        rfl
      · rw [if_neg hmatch] at hqeq
        subst hqeq
        exact absurd ⟨hqc, hqk⟩ hmatch
    · refine ⟨(c, k, true), ?_, rfl, rfl⟩
      rw [he']
      unfold approveInferred
      simp only [List.mem_map]
      exact ⟨(c, k, false), hin, by simp⟩
  refine ⟨h1, ?_, h2, ?_⟩
  · unfold defaultKnows
    rw [h1]
    rfl
  · unfold defaultKnows
    rw [h2]
    rfl

/-- Fixture: the spec's scenario event — story order 1, marcus (1)
present in no observing role, with an unapproved inference that marcus
suspects fact 20 (`jane.has_secret`). -/
def wE3 : Event := ⟨3, 1, [], [], [], 0, [], [], [], [], [(1, 20, false)], [], []⟩

/-- Witness for C7: the scenario event's unapproved inference is computed
pending and excluded from the default query; approved, it is included
at confidence suspicion. -/
theorem inferred_pending_approval_witness :
    projectChar [wE3] 1 20 = some (mkFact 1 20 1 .inferred .suspicion true) ∧
    defaultKnows (projectChar [wE3] 1) 20 = false ∧
    projectChar [approveInferred wE3 1 20] 1 20 =
      some (mkFact 1 20 1 .inferred .suspicion false) ∧
    defaultKnows (projectChar [approveInferred wE3 1 20] 1) 20 = true :=
  inferred_pending_approval wE3 1 20 (by decide) (by decide) (by decide)
    (by decide) (by decide) (by decide) (by decide) (by decide)

lemma rank_le_three (cf : Confidence) : cf.rank ≤ 3 := by
  cases cf <;> simp [Confidence.rank]

lemma rank_eq_three (cf : Confidence) (h : cf.rank = 3) : cf = .certain := by
  cases cf <;> simp [Confidence.rank] at h ⊢

lemma winnerSpec_insert (k : Nat) (seen : List KnowledgeFact) (m : KMap)
    (f : KnowledgeFact) (hf : f.invalidated_at = none)
    (h : WinnerSpec seen k (m k)) :
    WinnerSpec (seen ++ [f]) k ((insertFact m f) k) := by
  by_cases hkey : k = f.fact_key
  · unfold insertFact
    rw [if_pos hkey]
    cases hmk : m k with
    | none =>
      rw [hmk] at h
      simp only [WinnerSpec] at h ⊢
      refine ⟨hkey.symm, by simp, hf, ?_⟩
      intro g hg hgk
      rcases List.mem_append.mp hg with hg | hg
      · exact absurd hgk (h g hg)
      · simp only [List.mem_singleton] at hg
        subst hg
        right
        exact ⟨rfl, Nat.le_refl _⟩
    | some g0 =>
      rw [hmk] at h
      simp only [WinnerSpec] at h
      obtain ⟨hg0k, hg0mem, hg0inv, hmax⟩ := h
      dsimp only
      rw [hg0inv]
      simp only [Option.isSome_none]
      rw [if_neg (by simp)]
      by_cases h1 : g0.confidence.rank < f.confidence.rank
      · rw [if_pos h1]
        simp only [WinnerSpec]
        refine ⟨hkey.symm, by simp, hf, ?_⟩
        intro g hg hgk
        rcases List.mem_append.mp hg with hg | hg
        · rcases hmax g hg hgk with h' | ⟨h', _⟩
          · left; omega
          · left; omega
        · simp only [List.mem_singleton] at hg
          subst hg
          right
          exact ⟨rfl, Nat.le_refl _⟩
      · rw [if_neg h1]
        by_cases h2 : g0.confidence.rank = f.confidence.rank ∧
            f.learned_at < g0.learned_at
        · rw [if_pos h2]
          simp only [WinnerSpec]
          refine ⟨hkey.symm, by simp, hf, ?_⟩
          intro g hg hgk
          rcases List.mem_append.mp hg with hg | hg
          · rcases hmax g hg hgk with h' | ⟨h', h''⟩
            · left; omega
            · right
              exact ⟨by omega, by omega⟩
          · simp only [List.mem_singleton] at hg
            subst hg
            right
            exact ⟨rfl, Nat.le_refl _⟩
        · rw [if_neg h2]
          simp only [WinnerSpec]
          refine ⟨hg0k, List.mem_append.mpr (Or.inl hg0mem), hg0inv, ?_⟩
          intro g hg hgk
          rcases List.mem_append.mp hg with hg | hg
          · exact hmax g hg hgk
          · simp only [List.mem_singleton] at hg
            subst hg
            by_cases h3 : g.confidence.rank < g0.confidence.rank
            · left; exact h3
            · right
              constructor
              · omega
              · by_cases h4 : g0.confidence.rank = g.confidence.rank
                · have := fun hl => h2 ⟨h4, hl⟩
                  omega
                · omega
  · have hunch : (insertFact m f) k = m k := by
      unfold insertFact
      rw [if_neg hkey]
    rw [hunch]
    cases hmk : m k with
    | none =>
      rw [hmk] at h
      simp only [WinnerSpec] at h ⊢
      intro g hg hgk
      rcases List.mem_append.mp hg with hg | hg
      · exact h g hg hgk
      · simp only [List.mem_singleton] at hg
        subst hg
        exact absurd hgk.symm hkey
    | some g0 =>
      rw [hmk] at h
      simp only [WinnerSpec] at h ⊢
      obtain ⟨hg0k, hg0mem, hg0inv, hmax⟩ := h
      refine ⟨hg0k, List.mem_append.mpr (Or.inl hg0mem), hg0inv, ?_⟩
      intro g hg hgk
      rcases List.mem_append.mp hg with hg | hg
      · exact hmax g hg hgk
      · simp only [List.mem_singleton] at hg
        subst hg
        exact absurd hgk.symm hkey

lemma winnerSpec_foldl (k : Nat) (cs : List KnowledgeFact) :
    ∀ (seen : List KnowledgeFact) (m : KMap),
      (∀ f ∈ cs, f.invalidated_at = none) →
      WinnerSpec seen k (m k) →
      WinnerSpec (seen ++ cs) k ((cs.foldl insertFact m) k) := by
  induction cs with
  | nil =>
    intro seen m _ h
    simpa using h
  | cons f t ih =>
    intro seen m hinv h
    have h1 := winnerSpec_insert k seen m f (hinv f (by simp)) h
    have h2 := ih (seen ++ [f]) (insertFact m f)
      (fun g hg => hinv g (by simp [hg])) h1
    simpa [List.append_assoc] using h2

lemma eventFacts_inval_none (e : Event) (c : Nat) :
    ∀ f ∈ eventFacts e c, f.invalidated_at = none := by
  intro f hf
  unfold eventFacts at hf
  simp only [List.mem_append] at hf
  rcases hf with ((((hf | hf) | hf) | hf) | hf) | hf
  · by_cases h : c ∈ e.characters_present
    · rw [if_pos h] at hf
      obtain ⟨_, _, hfe⟩ := List.mem_map.mp hf
      subst hfe; rfl
    · rw [if_neg h] at hf
      cases hf
  · obtain ⟨p, _, hpe⟩ := List.mem_filterMap.mp hf
    by_cases h : p.1 = c
    · rw [if_pos h] at hpe
      injection hpe with hpe
      subst hpe; rfl
    · rw [if_neg h] at hpe
      cases hpe
  · obtain ⟨p, _, hpe⟩ := List.mem_filterMap.mp hf
    by_cases h : p.1 = c
    · rw [if_pos h] at hpe
      injection hpe with hpe
      subst hpe; rfl
    · rw [if_neg h] at hpe
      cases hpe
  · by_cases h : c ∈ e.characters_colocated ∧ c ∉ e.characters_present
    · rw [if_pos h] at hf
      obtain ⟨_, _, hfe⟩ := List.mem_map.mp hf
      subst hfe; rfl
    · rw [if_neg h] at hf
      cases hf
  · obtain ⟨q, _, hqe⟩ := List.mem_filterMap.mp hf
    by_cases h : q.1 = c
    · rw [if_pos h] at hqe
      injection hqe with hqe
      subst hqe; rfl
    · rw [if_neg h] at hqe
      cases hqe
  · obtain ⟨p, _, hpe⟩ := List.mem_filterMap.mp hf
    by_cases h : p.1 = c
    · rw [if_pos h] at hpe
      injection hpe with hpe
      subst hpe; rfl
    · rw [if_neg h] at hpe
      cases hpe

lemma winnerSpec_stepEvent (e : Event) (c k : Nat)
    (seen : List KnowledgeFact) (m : KMap)
    (hinv : ∀ p ∈ e.invalidates, p.1 = c → p.2 ≠ k)
    (h : WinnerSpec seen k (m k)) :
    WinnerSpec (seen ++ eventFacts e c) k ((stepEvent c m e) k) := by
  unfold stepEvent
  rw [foldl_inval_other k _ _ _ ?_]
  · exact winnerSpec_foldl k (eventFacts e c) seen m (eventFacts_inval_none e c) h
  · intro p hp
    simp only [List.mem_filter, decide_eq_true_eq] at hp
    exact hinv p hp.1 hp.2

lemma winnerSpec_foldl_events (c k : Nat) (es : List Event) :
    ∀ (seen : List KnowledgeFact) (m : KMap),
      NoInval es c k →
      WinnerSpec seen k (m k) →
      WinnerSpec (seen ++ candidateFacts es c) k ((es.foldl (stepEvent c) m) k) := by
  induction es with
  | nil =>
    intro seen m _ h
    simpa [candidateFacts] using h
  | cons e t ih =>
    intro seen m hni h
    have h1 := winnerSpec_stepEvent e c k seen m
      (fun p hp hpc => hni e (by simp) p hp hpc) h
    have h2 := ih (seen ++ eventFacts e c) (stepEvent c m e)
      (fun e' he' => hni e' (by simp [he'])) h1
    simpa [candidateFacts, List.append_assoc] using h2

/-- A fact of confidence `certain`, not invalidated, is recorded for `k`. -/
def CertainAt (m : KMap) (k : Nat) : Prop :=
  ∃ f, m k = some f ∧ f.confidence = Confidence.certain ∧ f.invalidated_at = none

lemma certainAt_insert (m : KMap) (k : Nat) (f : KnowledgeFact)
    (hf : f.invalidated_at = none) (h : CertainAt m k) :
    CertainAt (insertFact m f) k := by
  obtain ⟨g, hg, hgc, hgi⟩ := h
  by_cases hkey : k = f.fact_key
  · unfold CertainAt insertFact
    rw [if_pos hkey]
    cases hmk : m k with
    | none =>
      rw [hmk] at hg
      cases hg
    | some g1 =>
      rw [hmk] at hg
      injection hg with hgeq
      rw [← hgeq] at hgc hgi
      dsimp only
      rw [hgi]
      simp only [Option.isSome_none]
      rw [if_neg (by simp)]
      by_cases h1 : g1.confidence.rank < f.confidence.rank
      · exfalso
        have h3 := rank_le_three f.confidence
        rw [hgc] at h1
        have h4 : Confidence.rank Confidence.certain = 3 := rfl
        rw [h4] at h1
        omega
      · rw [if_neg h1]
        by_cases h2 : g1.confidence.rank = f.confidence.rank ∧
            f.learned_at < g1.learned_at
        · rw [if_pos h2]
          refine ⟨f, rfl, ?_, hf⟩
          apply rank_eq_three
          rw [← h2.1, hgc]
          rfl
        · rw [if_neg h2]
          exact ⟨g1, rfl, hgc, hgi⟩
  · unfold CertainAt insertFact
    rw [if_neg hkey]
    exact ⟨g, hg, hgc, hgi⟩

lemma certainAt_stepEvent (e : Event) (c k : Nat) (m : KMap)
    (hinv : ∀ p ∈ e.invalidates, p.1 = c → p.2 ≠ k)
    (h : CertainAt m k) : CertainAt (stepEvent c m e) k := by
  unfold stepEvent
  have hrest : ∀ (cs : List KnowledgeFact) (m0 : KMap),
      (∀ f ∈ cs, f.invalidated_at = none) → CertainAt m0 k →
      CertainAt (cs.foldl insertFact m0) k := by
    intro cs
    induction cs with
    | nil => intro m0 _ h0; exact h0
    | cons f t ih =>
      intro m0 hcs h0
      exact ih (insertFact m0 f)
        (fun g hg => hcs g (by simp [hg]))
        (certainAt_insert m0 k f (hcs f (by simp)) h0)
  have h1 := hrest (eventFacts e c) m (eventFacts_inval_none e c) h
  obtain ⟨g, hg, hgc, hgi⟩ := h1
  refine ⟨g, ?_, hgc, hgi⟩
  rw [foldl_inval_other k _ _ _ ?_]
  · exact hg
  · intro p hp
    simp only [List.mem_filter, decide_eq_true_eq] at hp
    exact hinv p hp.1 hp.2

lemma certainAt_foldl_events (c k : Nat) (es : List Event) :
    ∀ (m : KMap), NoInval es c k → CertainAt m k →
      CertainAt (es.foldl (stepEvent c) m) k := by
  induction es with
  | nil => intro m _ h; exact h
  | cons e t ih =>
    intro m hni h
    exact ih (stepEvent c m e)
      (fun e' he' => hni e' (by simp [he']))
      (certainAt_stepEvent e c k m
        (fun p hp hpc => hni e (by simp) p hp hpc) h)

/-- C1: in the knowledge projection, the fact recorded for a pair
`(c, k)` is the highest-confidence candidate the propagation rules
produced, ties broken by the earliest learned-at story order
(`WinnerSpec`), and once a fact of confidence `certain` is recorded it
is never downgraded by later events unless one of them records an
explicit invalidation for `(c, k)`. -/
theorem knowledge_confidence_precedence (es es2 : List Event) (c k : Nat)
    (h1 : NoInval es c k) (h2 : NoInval es2 c k) :
    WinnerSpec (candidateFacts es c) k (projectChar es c k) ∧
    (∀ f, projectChar es c k = some f → f.confidence = Confidence.certain →
      ∃ f', projectChar (es ++ es2) c k = some f' ∧
        f'.confidence = Confidence.certain ∧ f'.invalidated_at = none) := by
  have hws : WinnerSpec (candidateFacts es c) k (projectChar es c k) := by
    have h0 : WinnerSpec [] k (KMap.empty k) := by
      simp only [WinnerSpec, KMap.empty]
      intro g hg
      cases hg
    have := winnerSpec_foldl_events c k es [] KMap.empty h1 h0
    simpa [projectChar] using this
  refine ⟨hws, ?_⟩
  intro f hf hfc
  have hfi : f.invalidated_at = none := by
    rw [hf] at hws
    simp only [WinnerSpec] at hws
    exact hws.2.2.1
  have hca : CertainAt (projectChar es c) k := ⟨f, hf, hfc, hfi⟩
  have hext := certainAt_foldl_events c k es2 (projectChar es c) h2 hca
  have happ : projectChar (es ++ es2) c =
      es2.foldl (stepEvent c) (projectChar es c) := by
    unfold projectChar
    rw [List.foldl_append]
  rw [happ]
  exact hext

/-- Fixture: event 4 at story order 3 — a rumor reaches marcus about
fact 10, weaker than his earlier direct observation. -/
def wE4 : Event := ⟨4, 3, [], [], [], 0, [], [], [], [], [], [(1, 10)], []⟩

/-- Witness for C1: over the two-event ledger the recorded fact for
(marcus, fact 10) satisfies the winner specification, and the
`certain` direct observation survives a later rumor-only event. -/
theorem knowledge_confidence_precedence_witness :
    WinnerSpec (candidateFacts [wE1, wE2] 1) 10 (projectChar [wE1, wE2] 1 10) ∧
    (∀ f, projectChar [wE1, wE2] 1 10 = some f →
      f.confidence = Confidence.certain →
      ∃ f', projectChar ([wE1, wE2] ++ [wE4]) 1 10 = some f' ∧
        f'.confidence = Confidence.certain ∧ f'.invalidated_at = none) :=
  knowledge_confidence_precedence [wE1, wE2] [wE4] 1 10
    (by unfold NoInval; decide) (by unfold NoInval; decide)

lemma getLast?_cons_of_ne_nil (a : Nat) (l : List Nat) (h : l ≠ []) :
    (a :: l).getLast? = l.getLast? := by
  cases l with
  | nil => exact absurd rfl h
  | cons b t => exact List.getLast?_cons_cons

lemma canReach_iff (es : List Event) :
    ∀ (fuel a b : Nat), canReach es fuel a b = true ↔
      ∃ l : List Nat, List.Chain (TrigEdge es) a l ∧ l.length ≤ fuel ∧
        (a :: l).getLast? = some b := by
  intro fuel
  induction fuel with
  | zero =>
    intro a b
    unfold canReach
    simp only [beq_iff_eq]
    constructor
    · intro h
      exact ⟨[], List.Chain.nil, Nat.le_refl _, by simp [h]⟩
    · rintro ⟨l, hch, hlen, hlast⟩
      have : l = [] := List.length_eq_zero.mp (Nat.le_zero.mp hlen)
      subst this
      simpa using hlast
  | succ fuel ih =>
    intro a b
    unfold canReach
    simp only [Bool.or_eq_true, beq_iff_eq, List.any_eq_true]
    constructor
    · rintro (h | ⟨t, ht, hr⟩)
      · exact ⟨[], List.Chain.nil, Nat.zero_le _, by simp [h]⟩
      · obtain ⟨l, hch, hlen, hlast⟩ := (ih t b).mp hr
        refine ⟨t :: l, List.chain_cons.mpr ⟨ht, hch⟩, by simpa using hlen, ?_⟩
        rw [List.getLast?_cons_cons]
        exact hlast
    · rintro ⟨l, hch, hlen, hlast⟩
      cases l with
      | nil =>
        left
        simpa using hlast
      | cons t l' =>
        right
        rw [List.chain_cons] at hch
        refine ⟨t, hch.1, (ih t b).mpr ⟨l', hch.2, ?_, ?_⟩⟩
        · simpa using Nat.le_of_succ_le_succ (by simpa using hlen)
        · rw [List.getLast?_cons_cons] at hlast
          exact hlast

lemma duplicate_split (L : List Nat) (h : ¬ L.Nodup) :
    ∃ (L1 : List Nat) (x : Nat) (L2 L3 : List Nat),
      L = L1 ++ x :: (L2 ++ x :: L3) := by
  induction L with
  | nil => exact absurd List.nodup_nil h
  | cons y t ih =>
    by_cases hy : y ∈ t
    · obtain ⟨s, u, heq⟩ := List.append_of_mem hy
      exact ⟨[], y, s, u, by rw [heq]; rfl⟩
    · have hnd : ¬ t.Nodup := fun hnd => h (List.nodup_cons.mpr ⟨hy, hnd⟩)
      obtain ⟨L1, x, L2, L3, heq⟩ := ih hnd
      exact ⟨y :: L1, x, L2, L3, by rw [heq]; rfl⟩

lemma chain_shortcut {R : Nat → Nat → Prop} (a x : Nat) (L1 L2 L3 : List Nat)
    (h : List.Chain R a (L1 ++ x :: (L2 ++ x :: L3))) :
    List.Chain R a (L1 ++ x :: L3) := by
  have h1 := (@List.chain_split Nat R a x L1 (L2 ++ x :: L3)).mp h
  have h2 := (@List.chain_split Nat R x x L2 L3).mp h1.2
  exact (@List.chain_split Nat R a x L1 L3).mpr ⟨h1.1, h2.2⟩

lemma getLast?_append_cons (y : Nat) (A : List Nat) (x : Nat) (B : List Nat) :
    (y :: (A ++ x :: B)).getLast? = (x :: B).getLast? := by
  induction A generalizing y with
  | nil => exact List.getLast?_cons_cons
  | cons a A ih =>
    rw [List.cons_append, List.getLast?_cons_cons]
    exact ih a

lemma getLast?_shortcut (a x : Nat) (L1 L2 L3 : List Nat) :
    (a :: (L1 ++ x :: (L2 ++ x :: L3))).getLast? =
      (a :: (L1 ++ x :: L3)).getLast? := by
  rw [getLast?_append_cons a L1 x (L2 ++ x :: L3),
    getLast?_append_cons a L1 x L3, getLast?_append_cons x L2 x L3]

lemma chain_nodup_of_chain {R : Nat → Nat → Prop} :
    ∀ (n : Nat) (l : List Nat) (a b : Nat), l.length ≤ n →
      List.Chain R a l → (a :: l).getLast? = some b →
      ∃ l', List.Chain R a l' ∧ (a :: l').getLast? = some b ∧
        l'.length ≤ l.length ∧ (a :: l').Nodup := by
  intro n
  induction n with
  | zero =>
    intro l a b hlen hch hlast
    have : l = [] := List.length_eq_zero.mp (Nat.le_zero.mp hlen)
    subst this
    exact ⟨[], hch, hlast, Nat.le_refl _, by simp⟩
  | succ n ih =>
    intro l a b hlen hch hlast
    by_cases hnd : (a :: l).Nodup
    · exact ⟨l, hch, hlast, Nat.le_refl _, hnd⟩
    · obtain ⟨L1, x, L2, L3, heq⟩ := duplicate_split (a :: l) hnd
      cases L1 with
      | nil =>
        injection heq with hax hl
        subst hax
        subst hl
        have hch' : List.Chain R a L3 :=
          ((@List.chain_split Nat R a a L2 L3).mp hch).2
        have hlast' : (a :: L3).getLast? = some b := by
          have h0 : (a :: (L2 ++ a :: L3)).getLast? = (a :: L3).getLast? :=
            getLast?_append_cons a L2 a L3
          rw [← h0]
          exact hlast
        have hlen' : L3.length ≤ n := by
          have h5 : (L2 ++ a :: L3).length ≤ n + 1 := hlen
          simp [List.length_append] at h5
          omega
        obtain ⟨l', h1, h2, h3, h4⟩ := ih L3 a b hlen' hch' hlast'
        refine ⟨l', h1, h2, ?_, h4⟩
        simp only [List.length_append, List.length_cons]
        omega
      | cons c L1' =>
        injection heq with hac hl
        subst hac
        subst hl
        have hch' : List.Chain R a (L1' ++ x :: L3) :=
          chain_shortcut a x L1' L2 L3 hch
        have hlast' : (a :: (L1' ++ x :: L3)).getLast? = some b := by
          rw [← getLast?_shortcut a x L1' L2 L3]
          exact hlast
        have hlen' : (L1' ++ x :: L3).length ≤ n := by
          have h5 : (L1' ++ x :: (L2 ++ x :: L3)).length ≤ n + 1 := hlen
          simp [List.length_append] at h5 ⊢
          omega
        obtain ⟨l', h1, h2, h3, h4⟩ := ih (L1' ++ x :: L3) a b hlen' hch' hlast'
        refine ⟨l', h1, h2, ?_, h4⟩
        simp [List.length_append] at h3 ⊢
        omega

lemma trigEdge_src_mem (es : List Event) (a b : Nat) (h : TrigEdge es a b) :
    a ∈ es.map Event.id := by
  unfold TrigEdge trigStep at h
  cases hf : es.find? (fun e => e.id == a) with
  | none =>
    rw [hf] at h
    cases h
  | some e =>
    have hmem := List.mem_of_find?_eq_some hf
    have hid : e.id = a := by simpa using List.find?_some hf
    exact List.mem_map.mpr ⟨e, hmem, hid⟩

lemma chain_sources_mem (es : List Event) :
    ∀ (l : List Nat) (a : Nat), List.Chain (TrigEdge es) a l →
      ∀ x ∈ (a :: l).dropLast, x ∈ es.map Event.id := by
  intro l
  induction l with
  | nil =>
    intro a _ x hx
    cases hx
  | cons t l' ih =>
    intro a hch x hx
    rw [List.chain_cons] at hch
    rw [List.dropLast_cons₂] at hx
    rcases List.mem_cons.mp hx with hx | hx
    · subst hx
      exact trigEdge_src_mem es x t hch.1
    · exact ih t hch.2 x hx

lemma nodup_chain_length_bound (es : List Event) (a : Nat) (l : List Nat)
    (hch : List.Chain (TrigEdge es) a l) (hnd : (a :: l).Nodup) :
    l.length ≤ es.length := by
  have hsrc := chain_sources_mem es l a hch
  have hnd' : (a :: l).dropLast.Nodup := hnd.sublist (List.dropLast_sublist _)
  have hsub : (a :: l).dropLast.toFinset ⊆ (es.map Event.id).toFinset := by
    intro x hx
    exact List.mem_toFinset.mpr (hsrc x (List.mem_toFinset.mp hx))
  have h1 : (a :: l).dropLast.toFinset.card = (a :: l).dropLast.length :=
    List.toFinset_card_of_nodup hnd'
  have h2 : (es.map Event.id).toFinset.card ≤ (es.map Event.id).length :=
    List.toFinset_card_le _
  have h3 := Finset.card_le_card hsub
  have h4 : (a :: l).dropLast.length = l.length := by
    rw [List.length_dropLast]
    rfl
  rw [h4] at h1
  rw [List.length_map] at h2
  omega

lemma trigStep_append_ne (es : List Event) (e : Event) (x : Nat)
    (hx : x ≠ e.id) : trigStep (es ++ [e]) x = trigStep es x := by
  unfold trigStep
  rw [List.find?_append]
  cases hf : es.find? (fun ev => ev.id == x) with
  | some ev => rfl
  | none =>
    have : [e].find? (fun ev => ev.id == x) = none := by
      rw [List.find?_eq_none]
      intro ev hev
      simp only [List.mem_singleton] at hev
      subst hev
      simp only [beq_iff_eq]
      exact fun h => hx h.symm
    rw [this]
    rfl

lemma chain_transfer (es : List Event) (e : Event) :
    ∀ (l : List Nat) (x : Nat),
      List.Chain (TrigEdge (es ++ [e])) x l →
      (∀ y ∈ (x :: l).dropLast, y ≠ e.id) →
      List.Chain (TrigEdge es) x l := by
  intro l
  induction l with
  | nil =>
    intro x _ _
    exact List.Chain.nil
  | cons t l' ih =>
    intro x hch hy
    rw [List.chain_cons] at hch ⊢
    have hxne : x ≠ e.id := by
      apply hy
      rw [List.dropLast_cons₂]
      simp
    constructor
    · unfold TrigEdge at hch ⊢
      rw [← trigStep_append_ne es e x hxne]
      exact hch.1
    · apply ih t hch.2
      intro y hymem
      apply hy
      rw [List.dropLast_cons₂]
      simp [hymem]

lemma getLast?_append_cons_gen (A : List Nat) (x : Nat) (B : List Nat) :
    (A ++ x :: B).getLast? = (x :: B).getLast? := by
  cases A with
  | nil => rfl
  | cons a A => exact getLast?_append_cons a A x B

lemma canReach_self (es : List Event) (fuel a : Nat) :
    canReach es fuel a a = true := by
  cases fuel <;> simp [canReach]

lemma not_mem_dropLast_of_nodup_getLast? (l : List Nat) (b : Nat)
    (hnd : l.Nodup) (hlast : l.getLast? = some b) : b ∉ l.dropLast := by
  intro hb
  have hne : l ≠ [] := by
    intro h
    subst h
    cases hlast
  have hdecomp : l.dropLast ++ [l.getLast hne] = l :=
    List.dropLast_append_getLast hne
  have hlb : l.getLast hne = b := by
    rw [List.getLast?_eq_getLast l hne] at hlast
    injection hlast
  rw [← hdecomp, List.nodup_append] at hnd
  exact hnd.2.2 hb (by simp [hlb])

/-- The story order of the committed event with a given id (0 when there
is none). -/
def orderOf (es : List Event) (x : Nat) : Nat :=
  match es.find? (fun e => e.id == x) with
  | some e => e.story_order
  | none => 0

lemma find?_eq_of_nodup (es : List Event) (hnd : (es.map Event.id).Nodup)
    (ev : Event) (hmem : ev ∈ es) :
    es.find? (fun e => e.id == ev.id) = some ev := by
  induction es with
  | nil => cases hmem
  | cons h t ih =>
    rw [List.map_cons, List.nodup_cons] at hnd
    rcases List.mem_cons.mp hmem with hm | hm
    · subst hm
      simp [List.find?_cons]
    · by_cases hh : h.id = ev.id
      · exact absurd (hh ▸ List.mem_map.mpr ⟨ev, hm, rfl⟩) hnd.1
      · have hb : (h.id == ev.id) = false := by simp [hh]
        rw [List.find?_cons, hb]
        exact ih hnd.2 hm

lemma trigEdge_order_lt (L : Ledger) (hwf : WFLedger L) (x y : Nat)
    (h : TrigEdge L.events x y) :
    orderOf L.events y < orderOf L.events x := by
  unfold TrigEdge trigStep at h
  cases hf : L.events.find? (fun e => e.id == x) with
  | none =>
    rw [hf] at h
    cases h
  | some ex =>
    rw [hf] at h
    have hmem := List.mem_of_find?_eq_some hf
    obtain ⟨ey, hey, heyid, heyord⟩ := hwf.1 ex hmem y h
    have hfy : L.events.find? (fun e => e.id == y) = some ey := by
      rw [← heyid]
      exact find?_eq_of_nodup _ hwf.2 ey hey
    unfold orderOf
    rw [hf, hfy]
    exact heyord

lemma chain_order_lt (L : Ledger) (hwf : WFLedger L) :
    ∀ (l : List Nat) (a b : Nat), l ≠ [] →
      List.Chain (TrigEdge L.events) a l → l.getLast? = some b →
      orderOf L.events b < orderOf L.events a := by
  intro l
  induction l with
  | nil =>
    intro a b h
    exact absurd rfl h
  | cons t l' ih =>
    intro a b _ hch hlast
    rw [List.chain_cons] at hch
    cases l' with
    | nil =>
      simp only [List.getLast?_singleton, Option.some.injEq] at hlast
      subst hlast
      exact trigEdge_order_lt L hwf a t hch.1
    | cons u l'' =>
      have h1 := trigEdge_order_lt L hwf a t hch.1
      have h2 := ih t b (by simp) hch.2 (by rw [← List.getLast?_cons_cons]; exact hlast)
      omega

lemma acyclic_of_wf (L : Ledger) (hwf : WFLedger L) : ¬ HasCycle L.events := by
  rintro ⟨a, l, hch, hlast⟩
  have hne : l ≠ [] := by
    intro h
    subst h
    cases hlast
  have := chain_order_lt L hwf l a a hne hch hlast
  omega

lemma wf_append (L : Ledger) (e : Event) (L' : Ledger)
    (h : L.append e = .ok L') (hwf : WFLedger L) : WFLedger L' := by
  unfold Ledger.append at h
  split at h
  case isTrue hc1 => cases h
  case isFalse hc1 =>
    split at h
    case isTrue hc2 => cases h
    case isFalse hc2 =>
      split at h
      case isTrue hc3 => cases h
      case isFalse hc3 =>
        split at h
        case isTrue hc4 => cases h
        case isFalse hc4 =>
          injection h with h
          subst h
          refine ⟨?_, ?_⟩
          · intro ev hev t ht
            rcases List.mem_append.mp hev with hm | hm
            · obtain ⟨e', he', hid, hord⟩ := hwf.1 ev hm t ht
              exact ⟨e', List.mem_append.mpr (Or.inl he'), hid, hord⟩
            · simp only [List.mem_singleton] at hm
              subst hm
              have h1 := not_not.mp hc1
              rw [List.all_eq_true] at h1
              have hct := h1 t ht
              unfold Ledger.committed at hct
              rw [List.any_eq_true] at hct
              obtain ⟨e', he', hid⟩ := hct
              have h3 := not_not.mp hc3
              rw [List.all_eq_true] at h3
              have hord := h3 e' he'
              exact ⟨e', List.mem_append.mpr (Or.inl he'),
                by simpa using hid, by simpa using hord⟩
          · rw [List.map_append, List.nodup_append]
            refine ⟨hwf.2, by simp, ?_⟩
            intro x hx
            simp only [List.map_cons, List.map_nil, List.mem_singleton]
            intro hxe
            subst hxe
            apply hc2
            show Ledger.committed L e.id = true
            unfold Ledger.committed
            rw [List.any_eq_true]
            obtain ⟨ev, hevm, hevid⟩ := List.mem_map.mp hx
            exact ⟨ev, hevm, by simp [hevid]⟩

lemma wf_of_reach (L : Ledger) (h : LedgerReach L) : WFLedger L := by
  induction h with
  | nil =>
    refine ⟨?_, by simp⟩
    intro ev hev
    cases hev
  | step hr happ ih => exact wf_append _ _ _ happ ih

lemma chain_join {R : Nat → Nat → Prop} :
    ∀ (l : List Nat) (x y : Nat) (m : List Nat),
      List.Chain R x l → l.getLast? = some y → List.Chain R y m →
      List.Chain R x (l ++ m) := by
  intro l
  induction l with
  | nil =>
    intro x y m _ hlast _
    cases hlast
  | cons c l' ih =>
    intro x y m hch hlast hm
    rw [List.chain_cons] at hch
    rw [List.cons_append, List.chain_cons]
    cases l' with
    | nil =>
      simp only [List.getLast?_singleton, Option.some.injEq] at hlast
      subst hlast
      exact ⟨hch.1, by simpa using hm⟩
    | cons d l'' =>
      rw [List.getLast?_cons_cons] at hlast
      exact ⟨hch.1, ih c y m hch.2 hlast hm⟩

lemma find?_none_of_not_committed (L : Ledger) (i : Nat)
    (h : L.committed i = false) :
    L.events.find? (fun e => e.id == i) = none := by
  rw [List.find?_eq_none]
  intro ev hev hb
  unfold Ledger.committed at h
  have h2 : L.events.any (fun e => e.id == i) = true :=
    List.any_eq_true.mpr ⟨ev, hev, hb⟩
  rw [h] at h2
  cases h2

/-- C5: ledger append validation. Appending fails with
`OrderingViolation` when a declared trigger is not yet committed, and
with `CycleDetected` when (the other validations passing) the event's
trigger edges would close a cycle in the trigger graph; consequently in
every ledger reachable through `append`, each committed event's
triggers reference only committed events of strictly smaller story
order and the trigger graph is acyclic. -/
theorem append_validation (L : Ledger) (e : Event) :
    ((∃ t ∈ e.triggers, L.committed t = false) →
      L.append e = .error .OrderingViolation) ∧
    ((e.triggers.all L.committed) = true → L.committed e.id = false →
      (L.events.all (fun e' => e'.story_order < e.story_order)) = true →
      ¬ HasCycle L.events → HasCycle (L.events ++ [e]) →
      L.append e = .error .CycleDetected) ∧
    (LedgerReach L →
      (∀ ev ∈ L.events, ∀ t ∈ ev.triggers,
        ∃ ev' ∈ L.events, ev'.id = t ∧ ev'.story_order < ev.story_order) ∧
      ¬ HasCycle L.events) := by
  refine ⟨?_, ?_, ?_⟩
  · rintro ⟨t, ht, hf⟩
    have hc : ¬ (e.triggers.all L.committed = true) := by
      intro hall
      rw [List.all_eq_true] at hall
      have h2 := hall t ht
      rw [hf] at h2
      cases h2
    unfold Ledger.append
    rw [if_pos hc]
  · intro h1 h2 h3 h4 h5
    have hfreshfind : L.events.find? (fun ev => ev.id == e.id) = none :=
      find?_none_of_not_committed L e.id h2
    have hany : e.triggers.any
        (fun t => canReach L.events L.events.length t e.id) = true := by
      obtain ⟨a, l, hch, hlast⟩ := h5
      have hmemid : e.id ∈ a :: l := by
        by_contra hni
        apply h4
        refine ⟨a, l, ?_, hlast⟩
        apply chain_transfer L.events e l a hch
        intro y hy hyid
        exact hni (hyid ▸ (List.dropLast_sublist (a :: l)).subset hy)
      have hone : [e].find? (fun ev => ev.id == e.id) = some e := by
        simp [List.find?_cons]
      have hstepid : trigStep (L.events ++ [e]) e.id = e.triggers := by
        unfold trigStep
        rw [List.find?_append, hfreshfind, hone]
        rfl
      have hcyc0 : ∃ l0, List.Chain (TrigEdge (L.events ++ [e])) e.id l0 ∧
          l0.getLast? = some e.id := by
        rcases List.mem_cons.mp hmemid with ha | hl
        · subst ha
          exact ⟨l, hch, hlast⟩
        · obtain ⟨l1, l2, heq⟩ := List.append_of_mem hl
          subst heq
          have hsp := (@List.chain_split Nat
            (TrigEdge (L.events ++ [e])) a e.id l1 l2).mp hch
          by_cases hl2 : l2 = []
          · subst hl2
            have hcl : (l1 ++ [e.id]).getLast? = some e.id :=
              List.getLast?_concat l1
            rw [hcl] at hlast
            injection hlast with haeq
            subst haeq
            exact ⟨l1 ++ [e.id], hch, List.getLast?_concat l1⟩
          · have hlast2 : l2.getLast? = some a := by
              rw [getLast?_append_cons_gen l1 e.id l2,
                getLast?_cons_of_ne_nil e.id l2 hl2] at hlast
              exact hlast
            refine ⟨l2 ++ (l1 ++ [e.id]),
              chain_join l2 e.id a (l1 ++ [e.id]) hsp.2 hlast2 hsp.1, ?_⟩
            rw [← List.append_assoc, List.getLast?_concat]
      obtain ⟨l0, hch0, hlast0⟩ := hcyc0
      cases l0 with
      | nil => cases hlast0
      | cons t rest =>
        rw [List.chain_cons] at hch0
        have htrig : t ∈ e.triggers := by
          have h7 : t ∈ trigStep (L.events ++ [e]) e.id := hch0.1
          rw [hstepid] at h7
          exact h7
        by_cases hte : t = e.id
        · subst hte
          rw [List.any_eq_true]
          exact ⟨e.id, htrig, canReach_self L.events L.events.length e.id⟩
        · obtain ⟨l3, hch3, hlast3, hlen3, hnd3⟩ :=
            chain_nodup_of_chain rest.length rest t e.id (Nat.le_refl _)
              hch0.2 hlast0
          have hdrop : ∀ y ∈ (t :: l3).dropLast, y ≠ e.id := by
            intro y hy hyid
            exact not_mem_dropLast_of_nodup_getLast? (t :: l3) e.id hnd3
              hlast3 (hyid ▸ hy)
          have hch4 := chain_transfer L.events e l3 t hch3 hdrop
          have hbound := nodup_chain_length_bound L.events t l3 hch4 hnd3
          rw [List.any_eq_true]
          exact ⟨t, htrig,
            (canReach_iff L.events L.events.length t e.id).mpr
              ⟨l3, hch4, hbound, hlast3⟩⟩
    unfold Ledger.append
    rw [if_neg (not_not_intro h1), if_neg ?_, if_neg (not_not_intro h3),
      if_pos hany]
    rw [h2]
    simp
  · intro hreach
    have hwf := wf_of_reach L hreach
    exact ⟨hwf.1, acyclic_of_wf L hwf⟩

/-- Fixture: an event declaring the uncommitted trigger 99. -/
def wEbad : Event := ⟨5, 5, [], [], [99], 0, [], [], [], [], [], [], []⟩

/-- Fixture: an event whose trigger dangles forward to id 2. -/
def wCycE1 : Event := ⟨1, 1, [], [], [2], 0, [], [], [], [], [], [], []⟩

/-- Fixture: an event that would close the 1-2 trigger cycle. -/
def wCycE2 : Event := ⟨2, 2, [], [], [1], 0, [], [], [], [], [], [], []⟩

/-- Fixture: a one-event ledger with a dangling forward trigger. -/
def wCycL : Ledger := ⟨[wCycE1]⟩

/-- Witness for C5: an uncommitted trigger is rejected with
`OrderingViolation`, closing a trigger cycle is rejected with
`CycleDetected`, and the two-event ledger reached through `append`
satisfies the ordering invariant with an acyclic trigger graph. -/
theorem append_validation_witness :
    Ledger.append wL wEbad = .error .OrderingViolation ∧
    Ledger.append wCycL wCycE2 = .error .CycleDetected ∧
    ((∀ ev ∈ wL.events, ∀ t ∈ ev.triggers,
        ∃ ev' ∈ wL.events, ev'.id = t ∧ ev'.story_order < ev.story_order) ∧
      ¬ HasCycle wL.events) := by
  refine ⟨?_, ?_, ?_⟩
  · exact (append_validation wL wEbad).1 ⟨99, by decide, by decide⟩
  · apply (append_validation wCycL wCycE2).2.1 (by decide) (by decide)
      (by decide) ?_ ?_
    · rintro ⟨a, l, hch, hlast⟩
      have hedge : ∀ x y, TrigEdge wCycL.events x y → x = 1 ∧ y = 2 := by
        intro x y h
        unfold TrigEdge trigStep at h
        by_cases hx : x = 1
        · subst hx
          refine ⟨rfl, ?_⟩
          simp [wCycL, wCycE1, List.find?_cons] at h
          exact h
        · have hn : wCycL.events.find? (fun e => e.id == x) = none := by
            rw [List.find?_eq_none]
            intro ev hev
            simp only [wCycL, wCycE1, List.mem_singleton] at hev
            subst hev
            simp only [beq_iff_eq]
            exact fun hh => hx hh.symm
          rw [hn] at h
          cases h
      cases l with
      | nil => cases hlast
      | cons t rest =>
        rw [List.chain_cons] at hch
        have h1 := hedge a t hch.1
        cases rest with
        | nil =>
          simp only [List.getLast?_singleton, Option.some.injEq] at hlast
          omega
        | cons u rest' =>
          have h2 := hedge t u (List.chain_cons.mp hch.2).1
          omega
    · refine ⟨1, [2, 1], ?_, rfl⟩
      rw [List.chain_cons]
      refine ⟨?_, ?_⟩
      · show (2 : Nat) ∈ trigStep (wCycL.events ++ [wCycE2]) 1
        decide
      · rw [List.chain_cons]
        exact ⟨by show (1 : Nat) ∈ trigStep (wCycL.events ++ [wCycE2]) 2; decide,
          List.Chain.nil⟩
  · exact (append_validation wL wE4).2.2
      (@LedgerReach.step ⟨[wE1]⟩ wE2 wL
        (@LedgerReach.step ⟨[]⟩ wE1 ⟨[wE1]⟩ LedgerReach.nil rfl) rfl)

end WhatIf
